import Mathlib

/-!
# Verification of the gototheMoon backtesting core

Shallow embedding of the repository's core:

* `src/src/trade_logic/simple_ma.py` — `SimpleMAStrategy.generate_signals`:
  dual moving-average crossover signal generation;
* `src/src/core/backtest.py` — `Backtester.__init__`, `Backtester.run` and
  `Backtester._calculate_performance_metrics`: the day-by-day portfolio
  simulation and the performance summary.

Modelling conventions:
* prices and cash are exact rationals (`ℚ`), standing in for Python floats;
* dates are integers (`ℤ`, day ordinals); pandas timestamp subtraction
  `(last - first).days` becomes integer subtraction;
* a pandas `DataFrame` of one ticker is a list of `(date, close)` pairs in
  index order (the code only reads the index and the `Close` column);
* the `all_data` dict from the provider and the precomputed `all_signals`
  dict are association lists; the portfolio dict is a total map
  `String → PortfolioEntry` — Python initialises exactly the configured
  tickers to `{shares: 0, value: 0.0}` and never touches other keys, so the
  total map with that default is extensionally the same state;
* `NaN` cells of the rolling means (fewer than `window` prior closes) are
  `Option.none`; every comparison of `NaN` is false in pandas, which the
  `Option` match reproduces;
* trade-log strings are structured `Trade` records carrying the same fields.
-/

namespace GoToTheMoon

/-- The categorical trading signal emitted by a strategy. -/
inductive Signal where
  | BUY
  | SELL
  | HOLD
deriving DecidableEq, Repr

/-- First-match lookup in an association list: the semantics of reading a
Python dict key (dict keys are unique, so first match is the match). -/
def alookup {κ α : Type} [DecidableEq κ] (k : κ) : List (κ × α) → Option α
  | [] => none
  | (k2, v) :: rest => if k2 = k then some v else alookup k rest

/-- Python `int(q)`: truncation toward zero. -/
def pyInt (q : ℚ) : ℤ := if 0 ≤ q then ⌊q⌋ else -⌊-q⌋

/-- `np.sign` on a (non-NaN) value. -/
def qsign (q : ℚ) : ℤ := if q < 0 then -1 else if q = 0 then 0 else 1

/-! ## SimpleMAStrategy.generate_signals (src/src/trade_logic/simple_ma.py)

`data['Close'].rolling(window=w, min_periods=w).mean()` at row `i` is the mean
of rows `i+1-w … i` when at least `w` rows exist up to `i`, and `NaN` before
that. -/

/-- The rolling mean of `closes` with window and `min_periods` both `w`,
at row index `i`: `none` models the `NaN` produced before `w` rows exist. -/
def smaAt (w : ℕ) (closes : List ℚ) (i : ℕ) : Option ℚ :=
  if w ≤ i + 1 then some ((((closes.drop (i + 1 - w)).take w).sum) / (w : ℚ))
  else none

/-- `signals['position'] = np.sign(short_mavg - long_mavg)` at row `i`;
`np.sign NaN = NaN`, modelled by `none`. -/
def positionAt (short long : ℕ) (closes : List ℚ) (i : ℕ) : Option ℤ :=
  match smaAt short closes i, smaAt long closes i with
  | some a, some b => some (qsign (a - b))
  | _, _ => none

/-- `signals['signal_val'] = signals['position'].diff()` at row `i`: the first
row and any row where either operand is `NaN` yield `NaN` (`none`). -/
def diffAt (short long : ℕ) (closes : List ℚ) (i : ℕ) : Option ℤ :=
  match i with
  | 0 => none
  | j + 1 =>
    match positionAt short long closes (j + 1), positionAt short long closes j with
    | some p, some q => some (p - q)
    | _, _ => none

/-- Rows where `signal_val == 2.0` become BUY, rows where `signal_val == -2.0`
become SELL, all others keep the initial HOLD; a `NaN` diff compares unequal
to both. -/
def signalAt (short long : ℕ) (closes : List ℚ) (i : ℕ) : Signal :=
  match diffAt short long closes i with
  | none => .HOLD
  | some d => if d = 2 then .BUY else if d = -2 then .SELL else .HOLD

/-- `SimpleMAStrategy.generate_signals`: a per-date signal series aligned with
the input rows. A series shorter than `long_window` is answered by the early
`return pd.Series('HOLD', index=data.index)`. -/
def generate_signals (short long : ℕ) (data : List (ℤ × ℚ)) : List (ℤ × Signal) :=
  if data.length < long then data.map (fun p => (p.1, Signal.HOLD))
  else
    let closes := data.map Prod.snd
    (List.range data.length).zipWith (fun i p => (p.1, signalAt short long closes i)) data

/-! ## Backtester (src/src/core/backtest.py) -/

/-- One entry of `self.portfolio`: `{'shares': 0, 'value': 0.0}`. -/
structure PortfolioEntry where
  shares : ℤ
  value : ℚ
deriving DecidableEq, Repr

/-- A structured trade-log record; the source appends the same fields as the
formatted string `"<date>: BOUGHT|SOLD <shares> <ticker> @ <price>"`. -/
structure Trade where
  date : ℤ
  side : Signal
  shares : ℤ
  ticker : String
  price : ℚ
deriving DecidableEq, Repr

/-- One element of `self.portfolio_history`: `{'date': date, 'value': pv}`. -/
structure Snapshot where
  date : ℤ
  value : ℚ
deriving DecidableEq, Repr

/-- A price series for one ticker: `(date, close)` rows in index order. -/
abbrev PriceSeries := List (ℤ × ℚ)

/-- The `Backtester` instance: configuration plus the mutable fields set in
`__init__` (`cash`, `portfolio`, `trade_log`, `portfolio_history`). `allData`
is the deterministic response of `data_provider.get_data(tickers, start,
end)`, fetched at the start of `run`. -/
structure Backtester where
  tickers : List String
  allData : List (String × PriceSeries)
  start_date : ℤ
  end_date : ℤ
  initial_capital : ℚ
  cash : ℚ
  portfolio : String → PortfolioEntry
  trade_log : List Trade
  portfolio_history : List Snapshot

/-- `Backtester.__init__`: store the configuration and zero the portfolio
state. -/
def mkBacktester (tickers : List String) (allData : List (String × PriceSeries))
    (start_date end_date : ℤ) (initial_capital : ℚ) : Backtester :=
  { tickers := tickers
    allData := allData
    start_date := start_date
    end_date := end_date
    initial_capital := initial_capital
    cash := initial_capital
    portfolio := fun _ => ⟨0, 0⟩
    trade_log := []
    portfolio_history := [] }

/-- `self.portfolio[ticker]['shares']`. -/
def getShares (b : Backtester) (t : String) : ℤ := (b.portfolio t).shares

/-- `self.portfolio[ticker]['value']`. -/
def getValue (b : Backtester) (t : String) : ℚ := (b.portfolio t).value

/-- Point update of one portfolio entry (a Python dict item assignment). -/
def updateEntry (p : String → PortfolioEntry) (t : String)
    (f : PortfolioEntry → PortfolioEntry) : String → PortfolioEntry :=
  fun u => if u = t then f (p u) else p u

/-- `self.portfolio[ticker]['value'] = shares * current_price` (line 63): the
mark-to-market update of one stored position value. -/
def touchValue (b : Backtester) (t : String) (x : ℚ) : Backtester :=
  { b with portfolio := (updateEntry b.portfolio t (fun e => { e with value := x })) }

/-- `ticker in all_data and date in all_data[ticker].index` followed by
`all_data[ticker].loc[date]['Close']`. -/
def priceOf (allData : List (String × PriceSeries)) (t : String) (d : ℤ) : Option ℚ :=
  match alookup t allData with
  | none => none
  | some series => alookup d series

/-- `all_signals[ticker].get(date, 'HOLD')`; the outer key is always present
where the source reads it (guarded by the same condition that filled it). -/
def signalFor (allSignals : List (String × List (ℤ × Signal))) (t : String) (d : ℤ) : Signal :=
  (alookup d ((alookup t allSignals).getD [])).getD .HOLD

/-- Lines 69–83 of `backtest.py`: execute the trade rule for one ticker on one
date, given the current close and the looked-up signal. The Python
temporaries are inlined: `investment_amount = cash * 0.1`,
`shares_to_buy = int(investment_amount / current_price)` (here
`pyInt (b.cash * (1 / 10) / current_price)`), `cost = shares_to_buy *
current_price`, `shares_to_sell = portfolio[ticker]['shares']` and
`revenue = shares_to_sell * current_price`. -/
def execTrade (b : Backtester) (ticker : String) (d : ℤ) (current_price : ℚ)
    (signal : Signal) : Backtester :=
  if signal = .BUY ∧ current_price < b.cash then
    if 0 < pyInt (b.cash * (1 / 10) / current_price) then
      { b with
        cash := b.cash - (pyInt (b.cash * (1 / 10) / current_price) : ℚ) * current_price
        portfolio := (updateEntry b.portfolio ticker (fun e => { e with shares := e.shares + pyInt (b.cash * (1 / 10) / current_price) }))
        trade_log := b.trade_log ++
          [{ date := d, side := .BUY, shares := pyInt (b.cash * (1 / 10) / current_price),
             ticker := ticker, price := current_price }] }
    else b
  else if signal = .SELL ∧ 0 < getShares b ticker then
    { b with
      cash := b.cash + (getShares b ticker : ℚ) * current_price
      portfolio := (updateEntry b.portfolio ticker (fun e => { e with shares := 0 }))
      trade_log := b.trade_log ++
        [{ date := d, side := .SELL, shares := getShares b ticker,
           ticker := ticker, price := current_price }] }
  else b

/-- Lines 58–83: the body of the inner ticker loop. The accumulator carries
the running `portfolio_value` for the day and the instance state. A ticker
with no price row on this date is skipped entirely; otherwise its position is
marked to market (running total and stored `value`, both with pre-trade
shares) and then the trade rule runs. -/
def processTicker (allSignals : List (String × List (ℤ × Signal))) (d : ℤ)
    (acc : ℚ × Backtester) (ticker : String) : ℚ × Backtester :=
  match priceOf acc.2.allData ticker d with
  | none => acc
  | some current_price =>
    let b := acc.2
    let sh := getShares b ticker
    let pv := acc.1 + (sh : ℚ) * current_price
    let b1 := touchValue b ticker ((sh : ℚ) * current_price)
    (pv, execTrade b1 ticker d current_price (signalFor allSignals ticker d))

/-- Lines 54–85: one iteration of the date loop — fold the ticker loop over
`self.tickers` starting from `portfolio_value = self.cash`, then append the
day's snapshot. -/
def processDate (allSignals : List (String × List (ℤ × Signal)))
    (b : Backtester) (d : ℤ) : Backtester :=
  { (b.tickers.foldl (processTicker allSignals d) (b.cash, b)).2 with
    portfolio_history :=
      (b.tickers.foldl (processTicker allSignals d) (b.cash, b)).2.portfolio_history
        ++ [⟨d, (b.tickers.foldl (processTicker allSignals d) (b.cash, b)).1⟩] }

/-- Insertion of one date into a sorted list (ascending). -/
def insertSorted (x : ℤ) : List ℤ → List ℤ
  | [] => [x]
  | y :: ys => if x ≤ y then x :: y :: ys else y :: insertSorted x ys

/-- `sorted(list(set.union(...)))` of the date sets: dedup then sort. -/
def sortDates (l : List ℤ) : List ℤ := l.dedup.foldr insertSorted []

/-- The computable fields of the `report` dict built by
`_calculate_performance_metrics` (the two irrational-valued entries,
annualized return and Sharpe ratio, are the functions `annualizedReturnPct`
and `sharpeRatio` of these fields and of the recorded history). -/
structure PerfSummary where
  total_return_pct : ℚ
  num_years : ℚ
  max_drawdown_pct : ℚ
  start_date : ℤ
  end_date : ℤ
  initial_capital : ℚ
  final_portfolio_value : ℚ
  total_trades : ℕ
deriving DecidableEq, Repr

/-- The value `run()` returns: `None` when the provider gave no data, the
`{"error": ...}` dict when no portfolio history was recorded, or the result
dict `{performance_summary, portfolio_history, trade_log}`. -/
inductive RunResult where
  | noData
  | emptyHistory
  | ok (summary : PerfSummary) (history : List Snapshot) (log : List Trade)
deriving DecidableEq, Repr

/-- Running maximum (`cummax`) continuation. -/
def runningMaxAux (m : ℚ) : List ℚ → List ℚ
  | [] => []
  | x :: xs => max m x :: runningMaxAux (max m x) xs

/-- `portfolio_df['value'].cummax()`. -/
def runningMax : List ℚ → List ℚ
  | [] => []
  | x :: xs => x :: runningMaxAux x xs

/-- Minimum of a value series (`.min()`); 0 on an empty list (unreached). -/
def listMin : List ℚ → ℚ
  | [] => 0
  | x :: xs => xs.foldl min x

/-- `Backtester._calculate_performance_metrics`, computable part. -/
def calculatePerformanceMetrics (b : Backtester) : RunResult :=
  match b.portfolio_history with
  | [] => .emptyHistory
  | h0 :: rest =>
    let hist := h0 :: rest
    let values := hist.map Snapshot.value
    let final_value := (hist.getLastD h0).value
    let total_return_pct := (final_value - b.initial_capital) / b.initial_capital * 100
    let num_days := (hist.getLastD h0).date - h0.date
    let num_years := (num_days : ℚ) / (1461 / 4)
    let drawdowns := List.zipWith (fun v pk => (v - pk) / pk) values (runningMax values)
    let max_drawdown_pct := listMin drawdowns * 100
    .ok
      { total_return_pct := total_return_pct
        num_years := num_years
        max_drawdown_pct := max_drawdown_pct
        start_date := b.start_date
        end_date := b.end_date
        initial_capital := b.initial_capital
        final_portfolio_value := final_value
        total_trades := b.trade_log.length }
      b.portfolio_history b.trade_log

/-- Lines 44–47: `all_signals[ticker] = strategy.generate_signals(data)` for
every configured ticker that has a non-empty price series. -/
def buildSignals (strategy : PriceSeries → List (ℤ × Signal)) (tickers : List String)
    (allData : List (String × PriceSeries)) : List (String × List (ℤ × Signal)) :=
  tickers.filterMap (fun t =>
    match alookup t allData with
    | some s => if s = [] then none else some (t, strategy s)
    | none => none)

/-- Lines 50–51: the unified calendar — the sorted union of all dates present
in any series, restricted to the inclusive `[start_date, end_date]` range. -/
def simCalendar (allData : List (String × PriceSeries)) (start_date end_date : ℤ) :
    List ℤ :=
  (sortDates ((allData.map (fun p => p.2.map Prod.fst)).flatten)).filter
    (fun d => start_date ≤ d ∧ d ≤ end_date)

/-- `Backtester.run`. The strategy object is a function from a price series
to a signal series (the only capability `run` uses); `get_data` already
happened and its response sits in `allData`. Returns the result together with
the instance as `run` leaves it — the source mutates `self` in place and
never resets `cash`, `portfolio`, `trade_log` or `portfolio_history`. -/
def Backtester.run (strategy : PriceSeries → List (ℤ × Signal)) (b : Backtester) :
    RunResult × Backtester :=
  if b.allData = [] then (.noData, b)
  else
    let b1 := (simCalendar b.allData b.start_date b.end_date).foldl
      (processDate (buildSignals strategy b.tickers b.allData)) b
    (calculatePerformanceMetrics b1, b1)

/-! ## The irrational-valued report entries -/

/-- `pct_change()` of the value series, with the leading `NaN` dropped (pandas
excludes it from `mean`/`std`). -/
def dailyReturns (values : List ℚ) : List ℚ :=
  (values.zip values.tail).map (fun p => (p.2 - p.1) / p.1)

/-- Mean of a list of rationals. -/
def listMean (xs : List ℚ) : ℚ := xs.sum / (xs.length : ℚ)

/-- Pandas sample variance (`ddof=1`); `none` models the `NaN` that `std()`
returns on fewer than two observations. -/
def sampleVarQ (xs : List ℚ) : Option ℚ :=
  if 2 ≤ xs.length then
    some ((xs.map (fun x => (x - listMean xs) ^ 2)).sum / ((xs.length : ℚ) - 1))
  else none

/-- `portfolio_df['daily_return'].std()` as a real number: the square root of
the sample variance (0 stands in for the `NaN` of a sub-2-point series, which
like a 0 fails the `std > 0` test in the source). -/
noncomputable def stdDev (xs : List ℚ) : ℝ :=
  match sampleVarQ xs with
  | some v => Real.sqrt (v : ℝ)
  | none => 0

/-- Report line `Annualized Return (%)`:
`((1 + total/100) ** (1/num_years) - 1) * 100 if num_years > 0 else 0`. -/
noncomputable def annualizedReturnPct (total_return_pct num_years : ℚ) : ℝ :=
  if 0 < num_years then
    ((1 + (total_return_pct : ℝ) / 100) ^ ((1 : ℝ) / (num_years : ℝ)) - 1) * 100
  else 0

/-- Report line `Sharpe Ratio`:
`mean/std * sqrt(252) if std > 0 else 0.0`, computed over the daily returns of
the recorded value series. The guard `std > 0` is expressed on the sample
variance — for a defined variance `v ≥ 0`, `sqrt v > 0 ↔ v > 0` — and an
undefined (`NaN`) standard deviation fails the guard exactly as in pandas. -/
noncomputable def sharpeRatio (values : List ℚ) : ℝ :=
  match sampleVarQ (dailyReturns values) with
  | some v =>
    if 0 < v then
      ((listMean (dailyReturns values) : ℝ) / Real.sqrt (v : ℝ)) * Real.sqrt 252
    else 0
  | none => 0

/-- All close prices in the provider's response are positive (the sanity
condition on market data under which the solvency claim is stated). -/
def pricesPos (allData : List (String × PriceSeries)) : Prop :=
  ∀ pr ∈ allData, ∀ q ∈ pr.2, 0 < q.2

/-- The solvency invariant of the simulator state: the cash balance and every
ticker's share count are non-negative. -/
def GoodState (b : Backtester) : Prop :=
  0 ≤ b.cash ∧ ∀ t, 0 ≤ getShares b t

/-! ## Lemmas about signal generation -/

lemma smaAt_eq_none_iff (w : ℕ) (closes : List ℚ) (i : ℕ) :
    smaAt w closes i = none ↔ i + 1 < w := by
  unfold smaAt
  split_ifs with h
  · simp; omega
  · simp; omega

lemma positionAt_eq_none_of (short long : ℕ) (closes : List ℚ) (i : ℕ)
    (h : i + 1 < long) : positionAt short long closes i = none := by
  unfold positionAt
  have hl : smaAt long closes i = none := (smaAt_eq_none_iff long closes i).2 h
  rw [hl]
  rcases smaAt short closes i with _ | a <;> rfl

lemma positionAt_eq_none_iff (short long : ℕ) (closes : List ℚ) (i : ℕ)
    (hw : short ≤ long) : positionAt short long closes i = none ↔ i + 1 < long := by
  constructor
  · intro h
    by_contra hc
    rcases hs : smaAt short closes i with _ | a
    · rw [smaAt_eq_none_iff] at hs; omega
    rcases hl : smaAt long closes i with _ | c
    · rw [smaAt_eq_none_iff] at hl; omega
    unfold positionAt at h
    rw [hs, hl] at h
    exact Option.noConfusion h
  · exact positionAt_eq_none_of short long closes i

lemma diffAt_eq_none_iff (short long : ℕ) (closes : List ℚ) (i : ℕ)
    (hw : short < long) : diffAt short long closes i = none ↔ i < long := by
  cases i with
  | zero =>
    simp only [diffAt, true_iff]
    omega
  | succ j =>
    simp only [diffAt]
    rcases h1 : positionAt short long closes (j + 1) with _ | p <;>
      rcases h2 : positionAt short long closes j with _ | q
    · have := (positionAt_eq_none_iff short long closes (j + 1) (le_of_lt hw)).1 h1
      simp; omega
    · have := (positionAt_eq_none_iff short long closes (j + 1) (le_of_lt hw)).1 h1
      simp; omega
    · have := (positionAt_eq_none_iff short long closes j (le_of_lt hw)).1 h2
      simp; omega
    · have hj1 := (positionAt_eq_none_iff short long closes (j + 1) (le_of_lt hw))
      rw [h1] at hj1
      have : ¬ (j + 1 + 1 < long) := fun hc => by simpa using hj1.2 hc
      have hj2 := (positionAt_eq_none_iff short long closes j (le_of_lt hw))
      rw [h2] at hj2
      have : ¬ (j + 1 < long) := fun hc => by simpa using hj2.2 hc
      simp; omega

lemma getD_zipWith_range' {β : Type} (f : ℕ → (ℤ × ℚ) → β) (dβ : β) (dp : ℤ × ℚ) :
    ∀ (l : List (ℤ × ℚ)) (k i : ℕ), i < l.length →
      ((List.range' k l.length).zipWith f l).getD i dβ = f (k + i) (l.getD i dp) := by
  intro l
  induction l with
  | nil => intro k i hi; simp at hi
  | cons a t ih =>
    intro k i hi
    cases i with
    | zero => simp [List.range']
    | succ j =>
      have hj : j < t.length := by simpa using Nat.lt_of_succ_lt_succ hi
      simp only [List.length_cons, List.range', List.zipWith, List.getD_cons_succ]
      rw [ih (k + 1) j hj]
      congr 1
      omega

lemma generate_signals_getD (short long : ℕ) (data : List (ℤ × ℚ))
    (hlen : long ≤ data.length) (i : ℕ) (hi : i < data.length) :
    (generate_signals short long data).getD i (0, Signal.HOLD) =
      ((data.getD i (0, 0)).1, signalAt short long (data.map Prod.snd) i) := by
  unfold generate_signals
  rw [if_neg (by omega)]
  rw [List.range_eq_range']
  have h := getD_zipWith_range'
    (fun i p => (p.1, signalAt short long (data.map Prod.snd) i)) (0, Signal.HOLD)
    (0, 0) data 0 i hi
  simpa using h

/-- C2: at every date where the day-over-day change of
`position = sign(short_ma - long_ma)` is defined, the generated signal is BUY
exactly when the change is `+2` and SELL exactly when it is `-2`; every other
date — the `±1` transitions through a tie and all dates before both averages
are defined (the change is defined precisely for row indices `≥ long`) —
yields HOLD. -/
theorem crossover_signal_iff_diff (short long : ℕ) (data : List (ℤ × ℚ))
    (hw : short < long) (hlen : long ≤ data.length) (i : ℕ) (hi : i < data.length) :
    (((generate_signals short long data).getD i (0, Signal.HOLD)).2 = Signal.BUY ↔
      diffAt short long (data.map Prod.snd) i = some 2) ∧
    (((generate_signals short long data).getD i (0, Signal.HOLD)).2 = Signal.SELL ↔
      diffAt short long (data.map Prod.snd) i = some (-2)) ∧
    (((generate_signals short long data).getD i (0, Signal.HOLD)).2 = Signal.HOLD ↔
      (diffAt short long (data.map Prod.snd) i ≠ some 2 ∧
       diffAt short long (data.map Prod.snd) i ≠ some (-2))) ∧
    (diffAt short long (data.map Prod.snd) i = none ↔ i < long) := by
  rw [generate_signals_getD short long data hlen i hi]
  refine ⟨?_, ?_, ?_, diffAt_eq_none_iff short long (data.map Prod.snd) i hw⟩ <;>
    · rcases h : diffAt short long (data.map Prod.snd) i with _ | d
      · simp [signalAt, h]
      · by_cases hd2 : d = 2
        · subst hd2; simp [signalAt, h]
        · by_cases hdm : d = -2
          · subst hdm; simp [signalAt, h]
          · simp [signalAt, h, hd2, hdm]

/-- Witness for C2: on closes `[1, 5, 1, 1]` with windows 1 and 2, the
position flips from `+1` to `-1` at row 2, so that row emits SELL. -/
theorem crossover_signal_iff_diff_witness :
    1 < 2 ∧ 2 ≤ ([((0 : ℤ), (1 : ℚ)), (1, 5), (2, 1), (3, 1)] : List (ℤ × ℚ)).length ∧
    2 < ([((0 : ℤ), (1 : ℚ)), (1, 5), (2, 1), (3, 1)] : List (ℤ × ℚ)).length ∧
    ((generate_signals 1 2 [((0 : ℤ), (1 : ℚ)), (1, 5), (2, 1), (3, 1)]).getD 2
        (0, Signal.HOLD)).2 = Signal.SELL :=
  ⟨by decide, by decide, by decide,
    ((crossover_signal_iff_diff 1 2 [((0 : ℤ), (1 : ℚ)), (1, 5), (2, 1), (3, 1)]
        (by decide) (by decide) 2 (by decide)).2.1).mpr
      (by norm_num [diffAt, positionAt, smaAt, qsign])⟩

/-- C6: a price series with fewer rows than `long_window` yields HOLD at every
date, and in any series every date with fewer than `long_window` trailing
closes (row index `i` with `i + 1 < long`, i.e. before both moving averages
are computable) yields HOLD. -/
theorem short_history_all_hold (short long : ℕ) (data : List (ℤ × ℚ)) :
    (data.length < long → ∀ p ∈ generate_signals short long data, p.2 = Signal.HOLD) ∧
    (∀ i, i < data.length → i + 1 < long →
      ((generate_signals short long data).getD i (0, Signal.HOLD)).2 = Signal.HOLD) := by
  constructor
  · intro hl p hp
    unfold generate_signals at hp
    rw [if_pos hl] at hp
    obtain ⟨q, _, rfl⟩ := List.mem_map.1 hp
    rfl
  · intro i hi hlong
    by_cases hl : data.length < long
    · unfold generate_signals
      rw [if_pos hl]
      rw [List.getD_eq_getElem _ _ (by simpa using hi)]
      simp
    · rw [generate_signals_getD short long data (le_of_not_lt hl) i hi]
      have hd : diffAt short long (data.map Prod.snd) i = none := by
        cases i with
        | zero => rfl
        | succ j =>
          simp only [diffAt]
          rw [positionAt_eq_none_of short long (data.map Prod.snd) j (by omega)]
          rcases positionAt short long (data.map Prod.snd) (j + 1) with _ | p <;> rfl
      simp [signalAt, hd]

/-- Witness for C6: a 1-row series with `long_window = 3` is all HOLD, and in
a 4-row series with `long_window = 2` row 0 (one trailing close) is HOLD. -/
theorem short_history_all_hold_witness :
    (([((0 : ℤ), (1 : ℚ))] : List (ℤ × ℚ)).length < 3 ∧
      ∀ p ∈ generate_signals 2 3 [((0 : ℤ), (1 : ℚ))], p.2 = Signal.HOLD) ∧
    (0 < ([((0 : ℤ), (1 : ℚ)), (1, 5), (2, 1), (3, 1)] : List (ℤ × ℚ)).length ∧
      ((generate_signals 1 2 [((0 : ℤ), (1 : ℚ)), (1, 5), (2, 1), (3, 1)]).getD 0
        (0, Signal.HOLD)).2 = Signal.HOLD) :=
  ⟨⟨by decide, (short_history_all_hold 2 3 [((0 : ℤ), (1 : ℚ))]).1 (by decide)⟩,
   ⟨by decide,
    (short_history_all_hold 1 2 [((0 : ℤ), (1 : ℚ)), (1, 5), (2, 1), (3, 1)]).2 0
      (by decide) (by decide)⟩⟩

/-! ## Lemmas about the per-ticker trade step -/

lemma processTicker_none (S : List (String × List (ℤ × Signal))) (d : ℤ)
    (acc : ℚ × Backtester) (t : String)
    (hp : priceOf acc.2.allData t d = none) : processTicker S d acc t = acc := by
  unfold processTicker
  rw [hp]

lemma processTicker_some (S : List (String × List (ℤ × Signal))) (d : ℤ)
    (acc : ℚ × Backtester) (t : String) (p : ℚ)
    (hp : priceOf acc.2.allData t d = some p) :
    processTicker S d acc t =
      (acc.1 + (getShares acc.2 t : ℚ) * p,
       execTrade (touchValue acc.2 t ((getShares acc.2 t : ℚ) * p)) t d p
         (signalFor S t d)) := by
  unfold processTicker
  rw [hp]

lemma execTrade_buy (b : Backtester) (t : String) (d : ℤ) (p : ℚ)
    (hc : p < b.cash) (hn : 0 < pyInt (b.cash * (1 / 10) / p)) :
    execTrade b t d p .BUY =
      { b with
        cash := b.cash - (pyInt (b.cash * (1 / 10) / p) : ℚ) * p
        portfolio := (updateEntry b.portfolio t (fun e => { e with shares := e.shares + pyInt (b.cash * (1 / 10) / p) }))
        trade_log := b.trade_log ++ [⟨d, .BUY, pyInt (b.cash * (1 / 10) / p), t, p⟩] } := by
  unfold execTrade
  rw [if_pos ⟨rfl, hc⟩, if_pos hn]

lemma execTrade_buy_zero (b : Backtester) (t : String) (d : ℤ) (p : ℚ)
    (hc : p < b.cash) (hn : ¬ 0 < pyInt (b.cash * (1 / 10) / p)) :
    execTrade b t d p .BUY = b := by
  unfold execTrade
  rw [if_pos ⟨rfl, hc⟩, if_neg hn]

lemma execTrade_buy_nocash (b : Backtester) (t : String) (d : ℤ) (p : ℚ)
    (hc : ¬ p < b.cash) : execTrade b t d p .BUY = b := by
  unfold execTrade
  rw [if_neg (fun h => hc h.2), if_neg (fun h => Signal.noConfusion h.1)]

lemma execTrade_sell (b : Backtester) (t : String) (d : ℤ) (p : ℚ)
    (hs : 0 < getShares b t) :
    execTrade b t d p .SELL =
      { b with
        cash := b.cash + (getShares b t : ℚ) * p
        portfolio := (updateEntry b.portfolio t (fun e => { e with shares := 0 }))
        trade_log := b.trade_log ++ [⟨d, .SELL, getShares b t, t, p⟩] } := by
  unfold execTrade
  rw [if_neg (fun h => Signal.noConfusion h.1), if_pos ⟨rfl, hs⟩]

lemma execTrade_sell_zero (b : Backtester) (t : String) (d : ℤ) (p : ℚ)
    (hs : ¬ 0 < getShares b t) : execTrade b t d p .SELL = b := by
  unfold execTrade
  rw [if_neg (fun h => Signal.noConfusion h.1), if_neg (fun h => hs h.2)]

lemma execTrade_hold (b : Backtester) (t : String) (d : ℤ) (p : ℚ) :
    execTrade b t d p .HOLD = b := by
  unfold execTrade
  rw [if_neg (fun h => Signal.noConfusion h.1), if_neg (fun h => Signal.noConfusion h.1)]

/-- The mark-to-market update of the stored `value` changes no share count. -/
lemma getShares_touchValue (b : Backtester) (t u : String) (x : ℚ) :
    getShares (touchValue b t x) u = getShares b u := by
  simp only [getShares, touchValue, updateEntry]
  split <;> rfl

/-- C3: a BUY signal with cash strictly above the close price invests 10% of
the current cash: `shares_to_buy = floor(0.1 * cash / price)` (Python's
`int()` truncates, which is the floor here because the quotient is
positive); when positive, exactly `shares_to_buy * price` leaves cash, the
shares go to the position and one BUY record is appended; when zero nothing
changes. The final conjunct is the ticker loop's left fold, so the cash each
trade sees is the balance left by the same-day trades of earlier tickers. -/
theorem buy_invests_tenth_of_cash (S : List (String × List (ℤ × Signal))) (d : ℤ)
    (acc : ℚ × Backtester) (t : String) (p : ℚ)
    (hp : priceOf acc.2.allData t d = some p) (hpos : 0 < p)
    (hsig : signalFor S t d = Signal.BUY) (hcash : p < acc.2.cash) :
    pyInt (acc.2.cash * (1 / 10) / p) = ⌊acc.2.cash * (1 / 10) / p⌋ ∧
    (0 < pyInt (acc.2.cash * (1 / 10) / p) →
      (processTicker S d acc t).2.cash
          = acc.2.cash - (pyInt (acc.2.cash * (1 / 10) / p) : ℚ) * p ∧
      getShares (processTicker S d acc t).2 t
          = getShares acc.2 t + pyInt (acc.2.cash * (1 / 10) / p) ∧
      (processTicker S d acc t).2.trade_log
          = acc.2.trade_log ++
              [⟨d, .BUY, pyInt (acc.2.cash * (1 / 10) / p), t, p⟩]) ∧
    (pyInt (acc.2.cash * (1 / 10) / p) = 0 →
      (processTicker S d acc t).2.cash = acc.2.cash ∧
      (∀ u, getShares (processTicker S d acc t).2 u = getShares acc.2 u) ∧
      (processTicker S d acc t).2.trade_log = acc.2.trade_log) ∧
    (∀ (ts : List String) (a : ℚ × Backtester),
      (t :: ts).foldl (processTicker S d) a
        = ts.foldl (processTicker S d) (processTicker S d a t)) := by
  have hc0 : (0 : ℚ) < acc.2.cash := lt_trans hpos hcash
  have hq : (0 : ℚ) ≤ acc.2.cash * (1 / 10) / p := by positivity
  refine ⟨by unfold pyInt; rw [if_pos hq], ?_, ?_, fun ts a => rfl⟩
  · intro hn
    rw [processTicker_some S d acc t p hp, hsig]
    dsimp only
    rw [execTrade_buy (touchValue acc.2 t ((getShares acc.2 t : ℚ) * p)) t d p hcash hn]
    refine ⟨rfl, ?_, rfl⟩
    simp [getShares, touchValue, updateEntry]
  · intro hn
    rw [processTicker_some S d acc t p hp, hsig]
    dsimp only
    rw [execTrade_buy_zero (touchValue acc.2 t ((getShares acc.2 t : ℚ) * p)) t d p hcash
      (by dsimp only [touchValue]; omega)]
    exact ⟨rfl, fun u => getShares_touchValue acc.2 t u _, rfl⟩

/-- Witness for C3: cash 1000, BUY at price 20 — `shares_to_buy = floor(100 /
20) = 5` and the new cash balance is `1000 - 5 * 20`. -/
theorem buy_invests_tenth_of_cash_witness :
    (0 : ℚ) < 20 ∧ (20 : ℚ) < 1000 ∧ pyInt ((1000 : ℚ) * (1 / 10) / 20) = 5 ∧
    (processTicker [("A", [((5 : ℤ), Signal.BUY)])] 5
        ((1000 : ℚ), mkBacktester ["A"] [("A", [((5 : ℤ), (20 : ℚ))])] 0 9 1000) "A").2.cash
      = 1000 - (pyInt ((1000 : ℚ) * (1 / 10) / 20) : ℚ) * 20 := by
  have h5 : pyInt ((1000 : ℚ) * (1 / 10) / 20) = 5 := by norm_num [pyInt]
  have h := buy_invests_tenth_of_cash [("A", [((5 : ℤ), Signal.BUY)])] 5
      ((1000 : ℚ), mkBacktester ["A"] [("A", [((5 : ℤ), (20 : ℚ))])] 0 9 1000) "A" 20 rfl
      (by norm_num) rfl (by show (20 : ℚ) < (1000 : ℚ); norm_num)
  have hn0 : (0 : ℤ) < pyInt (((1000 : ℚ),
      mkBacktester ["A"] [("A", [((5 : ℤ), (20 : ℚ))])] 0 9 1000).2.cash * (1 / 10) / 20) := by
    show (0 : ℤ) < pyInt ((1000 : ℚ) * (1 / 10) / 20)
    rw [h5]
    norm_num
  exact ⟨by norm_num, by norm_num, h5, (h.2.1 hn0).1⟩

/-- C4: a SELL signal with a positive share count liquidates the whole
position at the current close — the proceeds `shares * price` go to cash, the
share count becomes 0 and one SELL record is appended; a HOLD, a BUY with
`cash <= price`, or a SELL with zero shares held leaves cash, every ticker's
share count and the trade log unchanged (the stored derived `value` of the
priced ticker is still marked to market that day, per the data model). -/
theorem sell_liquidates_entirely (S : List (String × List (ℤ × Signal))) (d : ℤ)
    (acc : ℚ × Backtester) (t : String) (p : ℚ)
    (hp : priceOf acc.2.allData t d = some p) :
    (signalFor S t d = Signal.SELL → 0 < getShares acc.2 t →
      (processTicker S d acc t).2.cash = acc.2.cash + (getShares acc.2 t : ℚ) * p ∧
      getShares (processTicker S d acc t).2 t = 0 ∧
      (processTicker S d acc t).2.trade_log
        = acc.2.trade_log ++ [⟨d, .SELL, getShares acc.2 t, t, p⟩]) ∧
    (signalFor S t d = Signal.HOLD →
      (processTicker S d acc t).2.cash = acc.2.cash ∧
      (∀ u, getShares (processTicker S d acc t).2 u = getShares acc.2 u) ∧
      (processTicker S d acc t).2.trade_log = acc.2.trade_log) ∧
    (signalFor S t d = Signal.BUY → acc.2.cash ≤ p →
      (processTicker S d acc t).2.cash = acc.2.cash ∧
      (∀ u, getShares (processTicker S d acc t).2 u = getShares acc.2 u) ∧
      (processTicker S d acc t).2.trade_log = acc.2.trade_log) ∧
    (signalFor S t d = Signal.SELL → getShares acc.2 t = 0 →
      (processTicker S d acc t).2.cash = acc.2.cash ∧
      (∀ u, getShares (processTicker S d acc t).2 u = getShares acc.2 u) ∧
      (processTicker S d acc t).2.trade_log = acc.2.trade_log) := by
  refine ⟨?_, ?_, ?_, ?_⟩
  · intro hsig hsh
    rw [processTicker_some S d acc t p hp, hsig]
    dsimp only
    rw [execTrade_sell (touchValue acc.2 t ((getShares acc.2 t : ℚ) * p)) t d p
      (by rw [getShares_touchValue]; exact hsh)]
    refine ⟨?_, ?_, ?_⟩
    · rw [getShares_touchValue]; exact rfl
    · simp [getShares, touchValue, updateEntry]
    · rw [getShares_touchValue]; exact rfl
  · intro hsig
    rw [processTicker_some S d acc t p hp, hsig]
    dsimp only
    rw [execTrade_hold]
    exact ⟨rfl, fun u => getShares_touchValue acc.2 t u _, rfl⟩
  · intro hsig hcl
    rw [processTicker_some S d acc t p hp, hsig]
    dsimp only
    rw [execTrade_buy_nocash (touchValue acc.2 t ((getShares acc.2 t : ℚ) * p)) t d p
      (by dsimp only [touchValue]; exact not_lt.2 hcl)]
    exact ⟨rfl, fun u => getShares_touchValue acc.2 t u _, rfl⟩
  · intro hsig hz
    rw [processTicker_some S d acc t p hp, hsig]
    dsimp only
    rw [execTrade_sell_zero (touchValue acc.2 t ((getShares acc.2 t : ℚ) * p)) t d p
      (by rw [getShares_touchValue]; omega)]
    exact ⟨rfl, fun u => getShares_touchValue acc.2 t u _, rfl⟩

/-- Witness for C4: holding 4 shares at price 3 with cash 50, a SELL leaves
cash `50 + 4 * 3 = 62`. -/
theorem sell_liquidates_entirely_witness :
    priceOf [("A", [((7 : ℤ), (3 : ℚ))])] "A" 7 = some 3 ∧
    signalFor [("A", [((7 : ℤ), Signal.SELL)])] "A" 7 = Signal.SELL ∧
    (0 : ℤ) < 4 ∧
    (processTicker [("A", [((7 : ℤ), Signal.SELL)])] 7 ((0 : ℚ),
        { tickers := ["A"], allData := [("A", [((7 : ℤ), (3 : ℚ))])], start_date := 0,
          end_date := 9, initial_capital := 100, cash := 50, portfolio := fun _ => ⟨4, 12⟩,
          trade_log := [], portfolio_history := [] }) "A").2.cash = 62 := by
  have h := sell_liquidates_entirely [("A", [((7 : ℤ), Signal.SELL)])] 7 ((0 : ℚ),
      { tickers := ["A"], allData := [("A", [((7 : ℤ), (3 : ℚ))])], start_date := 0,
        end_date := 9, initial_capital := 100, cash := 50, portfolio := fun _ => ⟨4, 12⟩,
        trade_log := [], portfolio_history := [] }) "A" 3 rfl
  have hc := (h.1 rfl (by show (0 : ℤ) < 4; norm_num)).1
  refine ⟨rfl, rfl, by norm_num, ?_⟩
  rw [hc]
  show (50 : ℚ) + ((4 : ℤ) : ℚ) * 3 = 62
  norm_num

/-! ## Frame and conservation lemmas for the simulation loop -/

lemma execTrade_frame (b : Backtester) (t : String) (d : ℤ) (p : ℚ) (s : Signal) :
    (execTrade b t d p s).allData = b.allData ∧
    (execTrade b t d p s).portfolio_history = b.portfolio_history ∧
    (execTrade b t d p s).tickers = b.tickers ∧
    (execTrade b t d p s).start_date = b.start_date ∧
    (execTrade b t d p s).end_date = b.end_date ∧
    (execTrade b t d p s).initial_capital = b.initial_capital := by
  unfold execTrade
  split_ifs <;> exact ⟨rfl, rfl, rfl, rfl, rfl, rfl⟩

lemma execTrade_log (b : Backtester) (t : String) (d : ℤ) (p : ℚ) (s : Signal) :
    ∃ tl, (execTrade b t d p s).trade_log = b.trade_log ++ tl := by
  unfold execTrade
  split_ifs
  · exact ⟨_, rfl⟩
  · exact ⟨[], (List.append_nil _).symm⟩
  · exact ⟨_, rfl⟩
  · exact ⟨[], (List.append_nil _).symm⟩

lemma execTrade_shares_ne (b : Backtester) (t : String) (d : ℤ) (p : ℚ) (s : Signal)
    (u : String) (hu : u ≠ t) : getShares (execTrade b t d p s) u = getShares b u := by
  unfold execTrade
  split_ifs <;> simp [getShares, updateEntry, hu]

lemma execTrade_value (b : Backtester) (t : String) (d : ℤ) (p : ℚ) (s : Signal)
    (u : String) : getValue (execTrade b t d p s) u = getValue b u := by
  unfold execTrade
  split_ifs
  · simp only [getValue, updateEntry]
    split <;> rfl
  · rfl
  · simp only [getValue, updateEntry]
    split <;> rfl
  · rfl

lemma execTrade_conserve (b : Backtester) (t : String) (d : ℤ) (p : ℚ) (s : Signal) :
    (execTrade b t d p s).cash + (getShares (execTrade b t d p s) t : ℚ) * p
      = b.cash + (getShares b t : ℚ) * p := by
  unfold execTrade
  split_ifs
  · simp only [getShares, updateEntry, if_true, eq_self_iff_true]
    push_cast
    ring
  · rfl
  · simp only [getShares, updateEntry, if_true, eq_self_iff_true]
    push_cast
    ring
  · rfl

lemma getValue_touchValue_ne (b : Backtester) (t u : String) (x : ℚ) (hu : u ≠ t) :
    getValue (touchValue b t x) u = getValue b u := by
  simp [getValue, touchValue, updateEntry, hu]

lemma processTicker_frame (S : List (String × List (ℤ × Signal))) (d : ℤ)
    (acc : ℚ × Backtester) (t : String) :
    (processTicker S d acc t).2.allData = acc.2.allData ∧
    (processTicker S d acc t).2.portfolio_history = acc.2.portfolio_history ∧
    (processTicker S d acc t).2.tickers = acc.2.tickers ∧
    (processTicker S d acc t).2.start_date = acc.2.start_date ∧
    (processTicker S d acc t).2.end_date = acc.2.end_date ∧
    (processTicker S d acc t).2.initial_capital = acc.2.initial_capital := by
  rcases hp : priceOf acc.2.allData t d with _ | p
  · rw [processTicker_none S d acc t hp]
    exact ⟨rfl, rfl, rfl, rfl, rfl, rfl⟩
  · rw [processTicker_some S d acc t p hp]
    dsimp only
    have h := execTrade_frame (touchValue acc.2 t ((getShares acc.2 t : ℚ) * p)) t d p
      (signalFor S t d)
    exact ⟨h.1, h.2.1, h.2.2.1, h.2.2.2.1, h.2.2.2.2.1, h.2.2.2.2.2⟩

lemma processTicker_log (S : List (String × List (ℤ × Signal))) (d : ℤ)
    (acc : ℚ × Backtester) (t : String) :
    ∃ tl, (processTicker S d acc t).2.trade_log = acc.2.trade_log ++ tl := by
  rcases hp : priceOf acc.2.allData t d with _ | p
  · rw [processTicker_none S d acc t hp]
    exact ⟨[], (List.append_nil _).symm⟩
  · rw [processTicker_some S d acc t p hp]
    dsimp only
    exact execTrade_log (touchValue acc.2 t ((getShares acc.2 t : ℚ) * p)) t d p
      (signalFor S t d)

lemma processTicker_shares_ne (S : List (String × List (ℤ × Signal))) (d : ℤ)
    (acc : ℚ × Backtester) (t u : String) (hu : u ≠ t) :
    getShares (processTicker S d acc t).2 u = getShares acc.2 u := by
  rcases hp : priceOf acc.2.allData t d with _ | p
  · rw [processTicker_none S d acc t hp]
  · rw [processTicker_some S d acc t p hp]
    dsimp only
    rw [execTrade_shares_ne _ t d p _ u hu, getShares_touchValue]

lemma processTicker_value_ne (S : List (String × List (ℤ × Signal))) (d : ℤ)
    (acc : ℚ × Backtester) (t u : String) (hu : u ≠ t) :
    getValue (processTicker S d acc t).2 u = getValue acc.2 u := by
  rcases hp : priceOf acc.2.allData t d with _ | p
  · rw [processTicker_none S d acc t hp]
  · rw [processTicker_some S d acc t p hp]
    dsimp only
    rw [execTrade_value _ t d p _ u, getValue_touchValue_ne _ t u _ hu]

lemma processTicker_conserve (S : List (String × List (ℤ × Signal))) (d : ℤ)
    (acc : ℚ × Backtester) (t : String) (p : ℚ)
    (hp : priceOf acc.2.allData t d = some p) :
    (processTicker S d acc t).1 = acc.1 + (getShares acc.2 t : ℚ) * p ∧
    (processTicker S d acc t).2.cash + (getShares (processTicker S d acc t).2 t : ℚ) * p
      = acc.2.cash + (getShares acc.2 t : ℚ) * p := by
  rw [processTicker_some S d acc t p hp]
  dsimp only
  refine ⟨rfl, ?_⟩
  have h := execTrade_conserve (touchValue acc.2 t ((getShares acc.2 t : ℚ) * p)) t d p
    (signalFor S t d)
  rw [getShares_touchValue] at h
  exact h

lemma foldl_processTicker_frame (S : List (String × List (ℤ × Signal))) (d : ℤ) :
    ∀ (ts : List String) (acc : ℚ × Backtester),
      (ts.foldl (processTicker S d) acc).2.allData = acc.2.allData ∧
      (ts.foldl (processTicker S d) acc).2.portfolio_history = acc.2.portfolio_history ∧
      (ts.foldl (processTicker S d) acc).2.tickers = acc.2.tickers ∧
      (ts.foldl (processTicker S d) acc).2.start_date = acc.2.start_date ∧
      (ts.foldl (processTicker S d) acc).2.end_date = acc.2.end_date ∧
      (ts.foldl (processTicker S d) acc).2.initial_capital = acc.2.initial_capital := by
  intro ts
  induction ts with
  | nil => intro acc; exact ⟨rfl, rfl, rfl, rfl, rfl, rfl⟩
  | cons t ts ih =>
    intro acc
    have h1 := processTicker_frame S d acc t
    have h2 := ih (processTicker S d acc t)
    exact ⟨h2.1.trans h1.1, h2.2.1.trans h1.2.1, h2.2.2.1.trans h1.2.2.1,
      h2.2.2.2.1.trans h1.2.2.2.1, h2.2.2.2.2.1.trans h1.2.2.2.2.1,
      h2.2.2.2.2.2.trans h1.2.2.2.2.2⟩

lemma foldl_processTicker_log (S : List (String × List (ℤ × Signal))) (d : ℤ) :
    ∀ (ts : List String) (acc : ℚ × Backtester),
      ∃ tl, (ts.foldl (processTicker S d) acc).2.trade_log = acc.2.trade_log ++ tl := by
  intro ts
  induction ts with
  | nil => intro acc; exact ⟨[], (List.append_nil _).symm⟩
  | cons t ts ih =>
    intro acc
    obtain ⟨tl1, h1⟩ := processTicker_log S d acc t
    obtain ⟨tl2, h2⟩ := ih (processTicker S d acc t)
    exact ⟨tl1 ++ tl2, by rw [List.foldl_cons, h2, h1, List.append_assoc]⟩

lemma foldl_shares_not_mem (S : List (String × List (ℤ × Signal))) (d : ℤ) :
    ∀ (ts : List String) (acc : ℚ × Backtester) (u : String), u ∉ ts →
      getShares (ts.foldl (processTicker S d) acc).2 u = getShares acc.2 u := by
  intro ts
  induction ts with
  | nil => intros; rfl
  | cons t ts ih =>
    intro acc u hu
    have h1 : u ≠ t := fun e => hu (e ▸ List.mem_cons_self t ts)
    have h2 : u ∉ ts := fun m => hu (List.mem_cons_of_mem t m)
    rw [List.foldl_cons, ih (processTicker S d acc t) u h2,
      processTicker_shares_ne S d acc t u h1]

lemma foldl_processTicker_stale (S : List (String × List (ℤ × Signal))) (d : ℤ) :
    ∀ (ts : List String) (acc : ℚ × Backtester) (t : String),
      priceOf acc.2.allData t d = none →
      getValue (ts.foldl (processTicker S d) acc).2 t = getValue acc.2 t ∧
      getShares (ts.foldl (processTicker S d) acc).2 t = getShares acc.2 t := by
  intro ts
  induction ts with
  | nil => intros; exact ⟨rfl, rfl⟩
  | cons u ts ih =>
    intro acc t hp
    by_cases hu : t = u
    · subst hu
      have heq : processTicker S d acc t = acc := processTicker_none S d acc t hp
      rw [List.foldl_cons, heq]
      exact ih acc t hp
    · have hfr := processTicker_frame S d acc u
      have hp1 : priceOf (processTicker S d acc u).2.allData t d = none := by
        rw [hfr.1]; exact hp
      have h := ih (processTicker S d acc u) t hp1
      rw [List.foldl_cons]
      exact ⟨h.1.trans (processTicker_value_ne S d acc u t hu),
        h.2.trans (processTicker_shares_ne S d acc u t hu)⟩

/-- The running `portfolio_value` accumulated by the ticker loop equals the
cash it leaves behind plus the end-of-loop share counts priced at this date's
closes, summed over the tickers that have a price row today. -/
lemma foldl_value_invariant (S : List (String × List (ℤ × Signal))) (d : ℤ) :
    ∀ (ts : List String) (acc : ℚ × Backtester), ts.Nodup →
      (ts.foldl (processTicker S d) acc).1
        = acc.1 - acc.2.cash + (ts.foldl (processTicker S d) acc).2.cash
          + ((ts.filter (fun t => (priceOf acc.2.allData t d).isSome)).map
              (fun t => (getShares (ts.foldl (processTicker S d) acc).2 t : ℚ)
                * ((priceOf acc.2.allData t d).getD 0))).sum := by
  intro ts
  induction ts with
  | nil => intro acc _; simp
  | cons t ts ih =>
    intro acc hnd
    have hnotmem : t ∉ ts := (List.nodup_cons.1 hnd).1
    have hnd2 : ts.Nodup := (List.nodup_cons.1 hnd).2
    have hAD : (processTicker S d acc t).2.allData = acc.2.allData :=
      (processTicker_frame S d acc t).1
    have hIH := ih (processTicker S d acc t) hnd2
    rw [hAD] at hIH
    rw [List.foldl_cons]
    rcases hp : priceOf acc.2.allData t d with _ | p
    · have heq : processTicker S d acc t = acc := processTicker_none S d acc t hp
      have hfil : List.filter (fun t => (priceOf acc.2.allData t d).isSome) (t :: ts)
          = List.filter (fun t => (priceOf acc.2.allData t d).isSome) ts := by
        simp [List.filter_cons, hp]
      rw [hfil, hIH, heq]
    · have hfil : List.filter (fun t => (priceOf acc.2.allData t d).isSome) (t :: ts)
          = t :: List.filter (fun t => (priceOf acc.2.allData t d).isSome) ts := by
        simp [List.filter_cons, hp]
      rw [hfil]
      have hcons := processTicker_conserve S d acc t p hp
      have hsh : getShares (ts.foldl (processTicker S d) (processTicker S d acc t)).2 t
          = getShares (processTicker S d acc t).2 t :=
        foldl_shares_not_mem S d ts (processTicker S d acc t) t hnotmem
      rw [hIH, List.map_cons, List.sum_cons, hp, hsh]
      have h1 := hcons.1
      have h2 := hcons.2
      simp only [Option.getD_some]
      linarith [h1, h2]

lemma processDate_history (S : List (String × List (ℤ × Signal))) (b : Backtester)
    (d : ℤ) :
    (processDate S b d).portfolio_history
      = b.portfolio_history
        ++ [⟨d, (b.tickers.foldl (processTicker S d) (b.cash, b)).1⟩] := by
  unfold processDate
  dsimp only
  rw [(foldl_processTicker_frame S d b.tickers (b.cash, b)).2.1]

lemma processDate_frame (S : List (String × List (ℤ × Signal))) (b : Backtester)
    (d : ℤ) :
    (processDate S b d).allData = b.allData ∧
    (processDate S b d).tickers = b.tickers ∧
    (processDate S b d).start_date = b.start_date ∧
    (processDate S b d).end_date = b.end_date ∧
    (processDate S b d).initial_capital = b.initial_capital := by
  have h := foldl_processTicker_frame S d b.tickers (b.cash, b)
  exact ⟨h.1, h.2.2.1, h.2.2.2.1, h.2.2.2.2.1, h.2.2.2.2.2⟩

lemma processDate_log (S : List (String × List (ℤ × Signal))) (b : Backtester) (d : ℤ) :
    ∃ tl, (processDate S b d).trade_log = b.trade_log ++ tl :=
  foldl_processTicker_log S d b.tickers (b.cash, b)

/-- The snapshot appended for a date records the end-of-date cash plus the
end-of-date share counts priced at that date's closes, summed over the
tickers that have a price row on the date. -/
lemma processDate_snapshot (S : List (String × List (ℤ × Signal)))
    (b : Backtester) (d : ℤ) (hnd : b.tickers.Nodup) :
    (processDate S b d).portfolio_history
      = b.portfolio_history ++
        [⟨d, (processDate S b d).cash
            + ((b.tickers.filter (fun t => (priceOf b.allData t d).isSome)).map
                (fun t => (getShares (processDate S b d) t : ℚ)
                  * ((priceOf b.allData t d).getD 0))).sum⟩] := by
  rw [processDate_history]
  have h := foldl_value_invariant S d b.tickers (b.cash, b) hnd
  dsimp only at h
  have h2 : (b.tickers.foldl (processTicker S d) (b.cash, b)).1
      = (b.tickers.foldl (processTicker S d) (b.cash, b)).2.cash
        + ((b.tickers.filter (fun t => (priceOf b.allData t d).isSome)).map
            (fun t => (getShares (b.tickers.foldl (processTicker S d) (b.cash, b)).2 t : ℚ)
              * ((priceOf b.allData t d).getD 0))).sum := by
    rw [h]; ring
  rw [h2]
  exact rfl

/-- C10 (implicit): a ticker with no price row on a date contributes nothing
to that date's snapshot — the recorded total is the end-of-date cash plus the
mark-to-market of only the tickers that do have a row — and such a ticker's
stored (stale) `value` and share count are untouched that day. -/
theorem snapshot_skips_missing (S : List (String × List (ℤ × Signal)))
    (b : Backtester) (d : ℤ) (hnd : b.tickers.Nodup) :
    (processDate S b d).portfolio_history
      = b.portfolio_history ++
        [⟨d, (processDate S b d).cash
            + ((b.tickers.filter (fun t => (priceOf b.allData t d).isSome)).map
                (fun t => (getShares (processDate S b d) t : ℚ)
                  * ((priceOf b.allData t d).getD 0))).sum⟩] ∧
    ∀ t, priceOf b.allData t d = none →
      getValue (processDate S b d) t = getValue b t ∧
      getShares (processDate S b d) t = getShares b t := by
  refine ⟨processDate_snapshot S b d hnd, ?_⟩
  intro t hp
  constructor
  · show getValue (b.tickers.foldl (processTicker S d) (b.cash, b)).2 t = getValue b t
    exact (foldl_processTicker_stale S d b.tickers (b.cash, b) t hp).1
  · show getShares (b.tickers.foldl (processTicker S d) (b.cash, b)).2 t = getShares b t
    exact (foldl_processTicker_stale S d b.tickers (b.cash, b) t hp).2

/-- Witness for C10: with tickers `["A", "B"]` and price data only for `A`,
ticker `B` keeps its (stale) stored value and its share count across the
day. -/
theorem snapshot_skips_missing_witness :
    List.Nodup ["A", "B"] ∧
    priceOf [("A", [((0 : ℤ), (10 : ℚ))])] "B" 0 = none ∧
    (getValue (processDate [] (mkBacktester ["A", "B"] [("A", [((0 : ℤ), (10 : ℚ))])] 0 0 1000) 0) "B"
        = getValue (mkBacktester ["A", "B"] [("A", [((0 : ℤ), (10 : ℚ))])] 0 0 1000) "B" ∧
      getShares (processDate [] (mkBacktester ["A", "B"] [("A", [((0 : ℤ), (10 : ℚ))])] 0 0 1000) 0) "B"
        = getShares (mkBacktester ["A", "B"] [("A", [((0 : ℤ), (10 : ℚ))])] 0 0 1000) "B") :=
  ⟨by decide, rfl,
    (snapshot_skips_missing [] (mkBacktester ["A", "B"] [("A", [((0 : ℤ), (10 : ℚ))])] 0 0 1000)
      0 (by decide)).2 "B" rfl⟩

/-- C1: the snapshot recorded for a simulated date has
`value = cash + sum(shares_i * close_i)` — the cash after the date's
processing plus every ticker's end-of-date share count times that date's
close — whenever every configured ticker has a price row on the date (the
sum over "all tickers" is only defined then; `snapshot_skips_missing` covers
the missing-row days). Every simulated date of a run is one `processDate`
step of the run's fold, so this covers each snapshot of the run. -/
theorem snapshot_value_invariant (S : List (String × List (ℤ × Signal)))
    (b : Backtester) (d : ℤ) (hnd : b.tickers.Nodup)
    (hall : ∀ t ∈ b.tickers, (priceOf b.allData t d).isSome = true) :
    (processDate S b d).portfolio_history
      = b.portfolio_history ++
        [⟨d, (processDate S b d).cash
            + (b.tickers.map
                (fun t => (getShares (processDate S b d) t : ℚ)
                  * ((priceOf b.allData t d).getD 0))).sum⟩] := by
  have hfil : b.tickers.filter (fun t => (priceOf b.allData t d).isSome) = b.tickers :=
    List.filter_eq_self.2 (fun t ht => hall t ht)
  have h := processDate_snapshot S b d hnd
  rw [hfil] at h
  exact h

/-- Witness for C1: one ticker with one price row — the hypotheses hold and
the recorded snapshot satisfies the invariant. -/
theorem snapshot_value_invariant_witness :
    List.Nodup ["A"] ∧
    (∀ t ∈ ["A"], (priceOf [("A", [((0 : ℤ), (10 : ℚ))])] t 0).isSome = true) ∧
    (processDate [] (mkBacktester ["A"] [("A", [((0 : ℤ), (10 : ℚ))])] 0 0 1000) 0).portfolio_history
      = [] ++
        [⟨0, (processDate [] (mkBacktester ["A"] [("A", [((0 : ℤ), (10 : ℚ))])] 0 0 1000) 0).cash
            + ((["A"] : List String).map
                (fun t => (getShares (processDate [] (mkBacktester ["A"] [("A", [((0 : ℤ), (10 : ℚ))])] 0 0 1000) 0) t : ℚ)
                  * ((priceOf [("A", [((0 : ℤ), (10 : ℚ))])] t 0).getD 0))).sum⟩] :=
  ⟨by decide, by decide,
    snapshot_value_invariant [] (mkBacktester ["A"] [("A", [((0 : ℤ), (10 : ℚ))])] 0 0 1000) 0
      (by decide) (by decide)⟩

/-! ## Solvency: cash and share counts stay non-negative -/

lemma alookup_mem {κ α : Type} [DecidableEq κ] (k : κ) (v : α) :
    ∀ l : List (κ × α), alookup k l = some v → (k, v) ∈ l := by
  intro l
  induction l with
  | nil => intro h; exact Option.noConfusion h
  | cons kv rest ih =>
    obtain ⟨k2, v2⟩ := kv
    intro h
    rw [show alookup k ((k2, v2) :: rest) = if k2 = k then some v2 else alookup k rest
      from rfl] at h
    by_cases hk : k2 = k
    · rw [if_pos hk] at h
      obtain rfl := Option.some.inj h
      subst hk
      exact List.mem_cons_self _ _
    · rw [if_neg hk] at h
      exact List.mem_cons_of_mem _ (ih h)

lemma priceOf_pos (allData : List (String × PriceSeries)) (t : String) (d : ℤ) (p : ℚ)
    (hpp : pricesPos allData) (hp : priceOf allData t d = some p) : 0 < p := by
  unfold priceOf at hp
  rcases hs : alookup t allData with _ | series
  · rw [hs] at hp; exact Option.noConfusion hp
  · rw [hs] at hp
    exact hpp (t, series) (alookup_mem t series allData hs) (d, p)
      (alookup_mem d p series hp)

lemma execTrade_good (b : Backtester) (t : String) (d : ℤ) (p : ℚ) (s : Signal)
    (hp : 0 < p) (hb : GoodState b) : GoodState (execTrade b t d p s) := by
  obtain ⟨hc, hs⟩ := hb
  unfold execTrade
  split_ifs with h1 h2 h3
  · constructor
    · show (0 : ℚ) ≤ b.cash - (pyInt (b.cash * (1 / 10) / p) : ℚ) * p
      have hc0 : (0 : ℚ) < b.cash := lt_trans hp h1.2
      have hq : (0 : ℚ) ≤ b.cash * (1 / 10) / p := by positivity
      have hfloor : pyInt (b.cash * (1 / 10) / p) = ⌊b.cash * (1 / 10) / p⌋ := by
        unfold pyInt; rw [if_pos hq]
      have hle : ((pyInt (b.cash * (1 / 10) / p) : ℤ) : ℚ) ≤ b.cash * (1 / 10) / p := by
        rw [hfloor]; exact_mod_cast Int.floor_le _
      have hmul : ((pyInt (b.cash * (1 / 10) / p) : ℤ) : ℚ) * p
          ≤ (b.cash * (1 / 10) / p) * p :=
        mul_le_mul_of_nonneg_right hle (le_of_lt hp)
      have hcan : (b.cash * (1 / 10) / p) * p = b.cash * (1 / 10) :=
        div_mul_cancel₀ _ (ne_of_gt hp)
      linarith
    · intro u
      show (0 : ℤ) ≤ (updateEntry b.portfolio t
          (fun e => { e with shares := e.shares + pyInt (b.cash * (1 / 10) / p) }) u).shares
      unfold updateEntry
      by_cases hu : u = t
      · rw [if_pos hu]
        have h0 := hs u
        simp only [getShares] at h0
        dsimp only
        omega
      · rw [if_neg hu]
        exact hs u
  · exact ⟨hc, hs⟩
  · constructor
    · show (0 : ℚ) ≤ b.cash + (getShares b t : ℚ) * p
      have h0 : (0 : ℤ) ≤ getShares b t := hs t
      have : (0 : ℚ) ≤ (getShares b t : ℚ) * p :=
        mul_nonneg (by exact_mod_cast h0) (le_of_lt hp)
      linarith
    · intro u
      show (0 : ℤ) ≤ (updateEntry b.portfolio t (fun e => { e with shares := 0 }) u).shares
      unfold updateEntry
      by_cases hu : u = t
      · rw [if_pos hu]
      · rw [if_neg hu]
        exact hs u
  · exact ⟨hc, hs⟩

lemma processTicker_good (S : List (String × List (ℤ × Signal))) (d : ℤ)
    (acc : ℚ × Backtester) (t : String)
    (hpp : pricesPos acc.2.allData) (hb : GoodState acc.2) :
    GoodState (processTicker S d acc t).2 := by
  rcases hp : priceOf acc.2.allData t d with _ | p
  · rw [processTicker_none S d acc t hp]; exact hb
  · rw [processTicker_some S d acc t p hp]
    dsimp only
    exact execTrade_good _ t d p (signalFor S t d)
      (priceOf_pos acc.2.allData t d p hpp hp)
      ⟨hb.1, fun u => by rw [getShares_touchValue]; exact hb.2 u⟩

lemma foldl_processTicker_good (S : List (String × List (ℤ × Signal))) (d : ℤ) :
    ∀ (ts : List String) (acc : ℚ × Backtester),
      pricesPos acc.2.allData → GoodState acc.2 →
      GoodState (ts.foldl (processTicker S d) acc).2 := by
  intro ts
  induction ts with
  | nil => intro acc _ hb; exact hb
  | cons t ts ih =>
    intro acc hpp hb
    rw [List.foldl_cons]
    exact ih (processTicker S d acc t)
      (by rw [(processTicker_frame S d acc t).1]; exact hpp)
      (processTicker_good S d acc t hpp hb)

lemma processDate_good (S : List (String × List (ℤ × Signal))) (b : Backtester) (d : ℤ)
    (hpp : pricesPos b.allData) (hb : GoodState b) : GoodState (processDate S b d) := by
  have h := foldl_processTicker_good S d b.tickers (b.cash, b) hpp ⟨hb.1, hb.2⟩
  exact ⟨h.1, h.2⟩

lemma foldl_processDate_good (S : List (String × List (ℤ × Signal))) :
    ∀ (ds : List ℤ) (b : Backtester), pricesPos b.allData → GoodState b →
      GoodState (ds.foldl (processDate S) b) := by
  intro ds
  induction ds with
  | nil => intro b _ hb; exact hb
  | cons d ds ih =>
    intro b hpp hb
    rw [List.foldl_cons]
    exact ih (processDate S b d)
      (by rw [(processDate_frame S b d).1]; exact hpp)
      (processDate_good S b d hpp hb)

/-- C5: with non-negative starting capital and positive close prices, the
simulator never oversells and never overspends — every per-ticker step
preserves `cash ≥ 0` and `shares ≥ 0` for every ticker (so the invariant
holds at every intermediate point of a run), and in particular the state a
full `run()` leaves behind satisfies it. -/
theorem cash_and_shares_never_negative :
    (∀ (S : List (String × List (ℤ × Signal))) (d : ℤ) (acc : ℚ × Backtester) (t : String),
      pricesPos acc.2.allData → GoodState acc.2 → GoodState (processTicker S d acc t).2) ∧
    (∀ (strategy : PriceSeries → List (ℤ × Signal)) (tickers : List String)
        (allData : List (String × PriceSeries)) (sd ed : ℤ) (cap : ℚ),
      0 ≤ cap → pricesPos allData →
      GoodState ((mkBacktester tickers allData sd ed cap).run strategy).2) := by
  constructor
  · exact processTicker_good
  · intro strategy tickers allData sd ed cap hcap hpp
    unfold Backtester.run
    split_ifs with hd
    · exact ⟨hcap, fun t => le_refl 0⟩
    · dsimp only
      exact foldl_processDate_good _ _ _ hpp ⟨hcap, fun t => le_refl 0⟩

/-- Witness for C5: a one-ticker, one-day run from capital 100 at price 10
keeps cash and share counts non-negative. -/
theorem cash_and_shares_never_negative_witness :
    (0 : ℚ) ≤ 100 ∧ pricesPos [("A", [((0 : ℤ), (10 : ℚ))])] ∧
    GoodState ((mkBacktester ["A"] [("A", [((0 : ℤ), (10 : ℚ))])] 0 0 100).run
      (fun _ => [])).2 :=
  ⟨by norm_num, by unfold pricesPos; decide,
    cash_and_shares_never_negative.2 (fun _ => []) ["A"] [("A", [((0 : ℤ), (10 : ℚ))])]
      0 0 100 (by norm_num) (by unfold pricesPos; decide)⟩

/-! ## Empty data and degenerate metrics -/

lemma flatten_nil_of {α : Type} : ∀ l : List (List α), (∀ x ∈ l, x = []) → l.flatten = [] := by
  intro l
  induction l with
  | nil => intro _; rfl
  | cons x xs ih =>
    intro h
    rw [List.flatten_cons, h x (List.mem_cons_self _ _), List.nil_append]
    exact ih (fun y hy => h y (List.mem_cons_of_mem _ hy))

lemma simCalendar_nil (allData : List (String × PriceSeries)) (sd ed : ℤ)
    (h : ∀ pr ∈ allData, pr.2 = ([] : PriceSeries)) : simCalendar allData sd ed = [] := by
  unfold simCalendar
  have h2 : (allData.map (fun p => p.2.map Prod.fst)).flatten = ([] : List ℤ) := by
    apply flatten_nil_of
    intro x hx
    obtain ⟨pr, hpr, rfl⟩ := List.mem_map.1 hx
    rw [h pr hpr]
    rfl
  rw [h2]
  rfl

/-- C7: when the price-data mapping is empty, or no ticker in it has any
rows, `run()` returns the null result (`None`) or the error record
(`{"error": ...}`) — a null/empty result either way; the embedding is a total
function, so no exception path exists. -/
theorem empty_data_gives_empty_result (strategy : PriceSeries → List (ℤ × Signal))
    (tickers : List String) (allData : List (String × PriceSeries)) (sd ed : ℤ) (cap : ℚ)
    (h : ∀ pr ∈ allData, pr.2 = ([] : PriceSeries)) :
    ((mkBacktester tickers allData sd ed cap).run strategy).1 = RunResult.noData ∨
    ((mkBacktester tickers allData sd ed cap).run strategy).1 = RunResult.emptyHistory := by
  unfold Backtester.run
  split_ifs with hd
  · left; rfl
  · right
    dsimp only
    have hsim : simCalendar (mkBacktester tickers allData sd ed cap).allData
        (mkBacktester tickers allData sd ed cap).start_date
        (mkBacktester tickers allData sd ed cap).end_date = [] :=
      simCalendar_nil allData sd ed h
    rw [hsim]
    exact rfl

/-- Witness for C7: a mapping with one ticker and zero rows yields the empty
result, not an exception. -/
theorem empty_data_gives_empty_result_witness :
    (∀ pr ∈ [("A", ([] : PriceSeries))], pr.2 = ([] : PriceSeries)) ∧
    (((mkBacktester ["A"] [("A", [])] 0 5 1000).run (fun _ => [])).1 = RunResult.noData ∨
     ((mkBacktester ["A"] [("A", [])] 0 5 1000).run (fun _ => [])).1 = RunResult.emptyHistory) :=
  ⟨by decide,
    empty_data_gives_empty_result (fun _ => []) ["A"] [("A", [])] 0 5 1000 (by decide)⟩

/-- C8: both degenerate report entries are the sentinel 0 — the annualized
return whenever the elapsed `num_years` is non-positive, and the Sharpe ratio
whenever the standard deviation of the daily returns is zero (a flat series
has variance 0 and a sub-two-point series has no defined deviation; both
fail the `std > 0` test and take the 0 branch). -/
theorem degenerate_metrics_sentinel_zero :
    (∀ total_return_pct num_years : ℚ, num_years ≤ 0 →
      annualizedReturnPct total_return_pct num_years = 0) ∧
    (∀ values : List ℚ, stdDev (dailyReturns values) = 0 → sharpeRatio values = 0) := by
  constructor
  · intro tr ny h
    unfold annualizedReturnPct
    rw [if_neg (not_lt.2 h)]
  · intro values h
    unfold sharpeRatio
    unfold stdDev at h
    rcases hv : sampleVarQ (dailyReturns values) with _ | v
    · rfl
    · rw [hv] at h
      dsimp only at h ⊢
      have hv0 : (v : ℝ) ≤ 0 := by
        by_contra hc
        push_neg at hc
        have hpos := Real.sqrt_pos.2 hc
        rw [h] at hpos
        exact lt_irrefl 0 hpos
      have hq : v ≤ 0 := by exact_mod_cast hv0
      rw [if_neg (not_lt.2 hq)]

/-- Witness for C8: a constant equity curve `[100, 100, 100]` has daily
returns `[0, 0]`, variance 0 and standard deviation 0, so the Sharpe ratio is
0; a zero elapsed time gives annualized return 0. -/
theorem degenerate_metrics_sentinel_zero_witness :
    (0 : ℚ) ≤ 0 ∧ stdDev (dailyReturns [100, 100, 100]) = 0 ∧
    annualizedReturnPct 5 0 = 0 ∧ sharpeRatio [100, 100, 100] = 0 := by
  have hvar : sampleVarQ (dailyReturns [(100 : ℚ), 100, 100]) = some 0 := by
    norm_num [dailyReturns, sampleVarQ, listMean]
  have hstd : stdDev (dailyReturns [(100 : ℚ), 100, 100]) = 0 := by
    unfold stdDev
    rw [hvar]
    simp
  exact ⟨le_refl 0, hstd,
    degenerate_metrics_sentinel_zero.1 5 0 (le_refl 0),
    degenerate_metrics_sentinel_zero.2 [100, 100, 100] hstd⟩

/-! ## State carryover across run() invocations -/

lemma foldl_processDate_frame (S : List (String × List (ℤ × Signal))) :
    ∀ (ds : List ℤ) (b : Backtester),
      (ds.foldl (processDate S) b).allData = b.allData ∧
      (ds.foldl (processDate S) b).tickers = b.tickers ∧
      (ds.foldl (processDate S) b).start_date = b.start_date ∧
      (ds.foldl (processDate S) b).end_date = b.end_date ∧
      (ds.foldl (processDate S) b).initial_capital = b.initial_capital := by
  intro ds
  induction ds with
  | nil => intro b; exact ⟨rfl, rfl, rfl, rfl, rfl⟩
  | cons d ds ih =>
    intro b
    have h1 := processDate_frame S b d
    have h2 := ih (processDate S b d)
    exact ⟨h2.1.trans h1.1, h2.2.1.trans h1.2.1, h2.2.2.1.trans h1.2.2.1,
      h2.2.2.2.1.trans h1.2.2.2.1, h2.2.2.2.2.trans h1.2.2.2.2⟩

lemma foldl_processDate_appends (S : List (String × List (ℤ × Signal))) :
    ∀ (ds : List ℤ) (b : Backtester),
      ∃ tl hs, (ds.foldl (processDate S) b).trade_log = b.trade_log ++ tl ∧
        (ds.foldl (processDate S) b).portfolio_history = b.portfolio_history ++ hs := by
  intro ds
  induction ds with
  | nil =>
    intro b
    exact ⟨[], [], (List.append_nil _).symm, (List.append_nil _).symm⟩
  | cons d ds ih =>
    intro b
    obtain ⟨tl0, h0⟩ := processDate_log S b d
    have hh0 := processDate_history S b d
    obtain ⟨tl1, hs1, h1, h2⟩ := ih (processDate S b d)
    refine ⟨tl0 ++ tl1,
      [⟨d, (b.tickers.foldl (processTicker S d) (b.cash, b)).1⟩] ++ hs1, ?_, ?_⟩
    · rw [List.foldl_cons, h1, h0, List.append_assoc]
    · rw [List.foldl_cons, h2, hh0, List.append_assoc]

lemma run_nonempty_state (strategy : PriceSeries → List (ℤ × Signal)) (b : Backtester)
    (hd : b.allData ≠ []) :
    (Backtester.run strategy b).2
      = (simCalendar b.allData b.start_date b.end_date).foldl
          (processDate (buildSignals strategy b.tickers b.allData)) b := by
  unfold Backtester.run
  rw [if_neg hd]

lemma run_result_state (strategy : PriceSeries → List (ℤ × Signal)) (b : Backtester)
    (hd : b.allData ≠ []) :
    (Backtester.run strategy b).1
      = calculatePerformanceMetrics (Backtester.run strategy b).2 := by
  unfold Backtester.run
  rw [if_neg hd]

lemma calculatePerformanceMetrics_ok (b : Backtester) (h0 : Snapshot) (rest : List Snapshot)
    (hh : b.portfolio_history = h0 :: rest) :
    ∃ s, calculatePerformanceMetrics b = .ok s b.portfolio_history b.trade_log := by
  unfold calculatePerformanceMetrics
  rw [hh]
  exact ⟨_, rfl⟩

/-- C9 amended: `run()` never resets the instance: the state it leaves behind
extends the incoming trade log and portfolio history (the incoming entries
stay as a prefix), and the simulation folds from the incoming cash and
positions — so a second `run()` on the same instance continues from the
first run's state instead of starting fresh. -/
theorem run_state_carries_over (strategy : PriceSeries → List (ℤ × Signal))
    (b : Backtester) :
    ∃ tl hs, (Backtester.run strategy b).2.trade_log = b.trade_log ++ tl ∧
      (Backtester.run strategy b).2.portfolio_history = b.portfolio_history ++ hs := by
  unfold Backtester.run
  split_ifs with hd
  · exact ⟨[], [], (List.append_nil _).symm, (List.append_nil _).symm⟩
  · dsimp only
    exact foldl_processDate_appends _ _ b

/-- Counterexample to C9 as stated: on a one-ticker, one-day configuration, a
second `run()` on the same instance returns a result whose portfolio history
has two snapshots, while a fresh instance's first `run()` records one — the
results differ. -/
theorem state_carryover_counterexample :
    (Backtester.run (fun _ => []) (Backtester.run (fun _ => [])
        (mkBacktester ["A"] [("A", [((0 : ℤ), (10 : ℚ))])] 0 0 1000)).2).1
      ≠ (Backtester.run (fun _ => [])
        (mkBacktester ["A"] [("A", [((0 : ℤ), (10 : ℚ))])] 0 0 1000)).1 := by
  intro heq
  set b0 := mkBacktester ["A"] [("A", [((0 : ℤ), (10 : ℚ))])] 0 0 1000 with hb0
  set b1 := (Backtester.run (fun _ => []) b0).2 with hb1
  set b2 := (Backtester.run (fun _ => []) b1).2 with hb2
  have hd0 : b0.allData ≠ [] := by
    rw [hb0]; intro h; exact List.noConfusion h
  have hcal : simCalendar b0.allData b0.start_date b0.end_date = [0] := by
    rw [hb0]; rfl
  have hrs1 : b1 = processDate (buildSignals (fun _ => []) b0.tickers b0.allData) b0 0 := by
    rw [hb1, run_nonempty_state _ _ hd0, hcal]
    rfl
  have hh1 : b1.portfolio_history.length = 1 := by
    rw [hrs1, processDate_history]
    rw [hb0]
    simp [mkBacktester]
  have hAD1 : b1.allData = b0.allData := by
    rw [hrs1]; exact (processDate_frame _ b0 0).1
  have hsd1 : b1.start_date = b0.start_date := by
    rw [hrs1]; exact (processDate_frame _ b0 0).2.2.1
  have hed1 : b1.end_date = b0.end_date := by
    rw [hrs1]; exact (processDate_frame _ b0 0).2.2.2.1
  have hd1 : b1.allData ≠ [] := by rw [hAD1]; exact hd0
  have hcal1 : simCalendar b1.allData b1.start_date b1.end_date = [0] := by
    rw [hAD1, hsd1, hed1]; exact hcal
  have hrs2 : b2 = processDate (buildSignals (fun _ => []) b1.tickers b1.allData) b1 0 := by
    rw [hb2, run_nonempty_state _ _ hd1, hcal1]
    rfl
  have hh2 : b2.portfolio_history.length = 2 := by
    rw [hrs2, processDate_history, List.length_append, hh1]
    rfl
  have hres1 : (Backtester.run (fun _ => []) b0).1 = calculatePerformanceMetrics b1 := by
    rw [run_result_state _ _ hd0, ← hb1]
  have hres2 : (Backtester.run (fun _ => []) b1).1 = calculatePerformanceMetrics b2 := by
    rw [run_result_state _ _ hd1, ← hb2]
  obtain ⟨h0a, resta, hha⟩ : ∃ h0 rest, b1.portfolio_history = h0 :: rest := by
    rcases hx : b1.portfolio_history with _ | ⟨a, l⟩
    · rw [hx] at hh1; exact absurd hh1 (by simp)
    · exact ⟨a, l, rfl⟩
  obtain ⟨h0b, restb, hhb⟩ : ∃ h0 rest, b2.portfolio_history = h0 :: rest := by
    rcases hx : b2.portfolio_history with _ | ⟨a, l⟩
    · rw [hx] at hh2; exact absurd hh2 (by simp)
    · exact ⟨a, l, rfl⟩
  obtain ⟨s1, hok1⟩ := calculatePerformanceMetrics_ok b1 h0a resta hha
  obtain ⟨s2, hok2⟩ := calculatePerformanceMetrics_ok b2 h0b restb hhb
  rw [hres2, hok2, hres1, hok1] at heq
  simp only [RunResult.ok.injEq] at heq
  obtain ⟨-, hhist, -⟩ := heq
  rw [hhist] at hh2
  omega

end GoToTheMoon
